import Mathlib

/-!
Verification of the file-discovery and grouping engine of JavSP
(src/javsp/file.py), as a shallow embedding in Lean 4.

Conventions of the embedding:
* Python strings are modelled as Lean `String` / `List Char`; `.upper()`,
  `.lower()` and `.strip()` are modelled on the ASCII range (the identifiers
  and paths this program manipulates are ASCII).
* Paths are POSIX strings; `os.path.join` is string concatenation with '/',
  `os.path.split`/`basename` split at the last '/'.
* Python dictionaries (which preserve insertion order) are modelled as
  association lists `List (String × List String)`.
* Loops bounded by a strictly decreasing string length are modelled with an
  explicit fuel argument equal to that length, so that every definition is
  structurally recursive and kernel-evaluable.
* The collaborators `get_id`, `get_cid`, `guess_av_type` and the configuration
  are black boxes per the spec and enter as parameters (`ScanCfg`).
-/

/-! ## ASCII character primitives (Python str.upper/lower/strip model) -/

-- Python `\s` whitespace on ASCII: space, \t, \n, \r, \x0b (VT), \x0c (FF).
def isPyWs (c : Char) : Bool :=
  c = ' ' || c = '\t' || c = '\n' || c = '\r' || c = '\x0b' || c = '\x0c'

-- str.upper() on one ASCII char
def upperC (c : Char) : Char :=
  if 97 ≤ c.toNat ∧ c.toNat ≤ 122 then Char.ofNat (c.toNat - 32) else c

-- str.lower() on one ASCII char
def lowerC (c : Char) : Char :=
  if 65 ≤ c.toNat ∧ c.toNat ≤ 90 then Char.ofNat (c.toNat + 32) else c

-- str.strip(): drop whitespace from both ends
def pyStripL (l : List Char) : List Char :=
  ((l.dropWhile isPyWs).reverse.dropWhile isPyWs).reverse

def pyUpperL (l : List Char) : List Char := l.map upperC

def pyLowerL (l : List Char) : List Char := l.map lowerC

/-! ## Identifier Normalizer (src/javsp/file.py lines 26-45) -/

-- _DUPLICATE_SUFFIXES = ('-UC', '-C'); the strip loop of
-- _normalize_duplicate_avid: repeatedly test the suffixes in order and drop
-- the first that matches, restarting after each removal, until none matches.
-- Each removal strictly shortens the string, so fuel = length suffices.
def stripLoopF : Nat → List Char → List Char
  | 0, l => l
  | fuel + 1, l =>
    if ("-UC").data.isSuffixOf l then stripLoopF fuel (l.take (l.length - 3))
    else if ("-C").data.isSuffixOf l then stripLoopF fuel (l.take (l.length - 2))
    else l

-- def _normalize_duplicate_avid(value): Upper-case the id, strip whitespace,
-- then loop-remove the -C/-UC suffixes; None/empty input gives None.
def _normalize_duplicate_avid (value : Option String) : Option String :=
  match value with
  | none => none
  | some s =>
    if s.data = [] then none
    else some ⟨stripLoopF (pyStripL (pyUpperL s.data)).length (pyStripL (pyUpperL s.data))⟩

/-! ### Normalizer lemmas -/

theorem toNat_ofNat_valid {n : Nat} (h : n.isValidChar) : (Char.ofNat n).toNat = n := by
  rw [Char.ofNat, dif_pos h]
  rfl

theorem upperC_toNat {c : Char} (h : 97 ≤ c.toNat ∧ c.toNat ≤ 122) :
    (upperC c).toNat = c.toNat - 32 := by
  have hv : (c.toNat - 32).isValidChar := Or.inl (by omega)
  rw [upperC, if_pos h, toNat_ofNat_valid hv]

theorem upperC_of_not {c : Char} (h : ¬(97 ≤ c.toNat ∧ c.toNat ≤ 122)) : upperC c = c := by
  rw [upperC, if_neg h]

theorem upperC_idem (c : Char) : upperC (upperC c) = upperC c := by
  by_cases h : 97 ≤ c.toNat ∧ c.toNat ≤ 122
  · have h2 := upperC_toNat h
    apply upperC_of_not
    omega
  · rw [upperC_of_not h, upperC_of_not h]

theorem pyUpperL_idem (l : List Char) : pyUpperL (pyUpperL l) = pyUpperL l := by
  unfold pyUpperL
  rw [List.map_map]
  apply List.map_congr_left
  intro c _
  exact upperC_idem c

-- stripLoopF only removes characters from the right end: it returns a take.
theorem stripLoopF_is_take (fuel : Nat) (l : List Char) :
    ∃ n, n ≤ l.length ∧ stripLoopF fuel l = l.take n := by
  induction fuel generalizing l with
  | zero => exact ⟨l.length, le_refl _, (List.take_length l).symm⟩
  | succ fuel ih =>
    rw [stripLoopF]
    by_cases h1 : ("-UC").data.isSuffixOf l
    · rw [if_pos h1]
      obtain ⟨n, hn, he⟩ := ih (l.take (l.length - 3))
      refine ⟨min n (l.length - 3), by omega, ?_⟩
      rw [he, List.take_take]
    · rw [if_neg h1]
      by_cases h2 : ("-C").data.isSuffixOf l
      · rw [if_pos h2]
        obtain ⟨n, hn, he⟩ := ih (l.take (l.length - 2))
        refine ⟨min n (l.length - 2), by omega, ?_⟩
        rw [he, List.take_take]
      · rw [if_neg h2]
        exact ⟨l.length, le_refl _, (List.take_length l).symm⟩

-- A list with a given strict suffix is at least that long.
theorem isSuffixOf_length_le {s l : List Char} (h : s.isSuffixOf l) : s.length ≤ l.length := by
  rw [List.isSuffixOf_iff_suffix] at h
  exact h.length_le

-- The result of the strip loop (with enough fuel) admits neither suffix.
theorem stripLoopF_no_suffix (fuel : Nat) (l : List Char) (hf : l.length ≤ fuel) :
    ¬("-UC").data.isSuffixOf (stripLoopF fuel l) ∧
    ¬("-C").data.isSuffixOf (stripLoopF fuel l) := by
  induction fuel generalizing l with
  | zero =>
    have : l = [] := List.length_eq_zero.mp (Nat.le_zero.mp hf)
    subst this
    constructor
    · intro h
      exact absurd (isSuffixOf_length_le h) (by decide)
    · intro h
      exact absurd (isSuffixOf_length_le h) (by decide)
  | succ fuel ih =>
    rw [stripLoopF]
    by_cases h1 : ("-UC").data.isSuffixOf l
    · rw [if_pos h1]
      have h3 : (3 : Nat) ≤ l.length := isSuffixOf_length_le h1
      apply ih
      rw [List.length_take]
      omega
    · rw [if_neg h1]
      by_cases h2 : ("-C").data.isSuffixOf l
      · rw [if_pos h2]
        have h3 : (2 : Nat) ≤ l.length := isSuffixOf_length_le h2
        apply ih
        rw [List.length_take]
        omega
      · rw [if_neg h2]
        exact ⟨h1, h2⟩

-- If the input admits neither suffix, the strip loop is the identity.
theorem stripLoopF_fixed (fuel : Nat) (l : List Char)
    (h1 : ¬("-UC").data.isSuffixOf l) (h2 : ¬("-C").data.isSuffixOf l) :
    stripLoopF fuel l = l := by
  cases fuel with
  | zero => rfl
  | succ fuel => rw [stripLoopF, if_neg h1, if_neg h2]

-- Every element surviving pyStripL was an element of the input.
theorem mem_pyStripL {c : Char} {l : List Char} (h : c ∈ pyStripL l) : c ∈ l := by
  unfold pyStripL at h
  rw [List.mem_reverse] at h
  have h1 := (List.dropWhile_sublist (l := (l.dropWhile isPyWs).reverse) (p := isPyWs)).subset h
  rw [List.mem_reverse] at h1
  exact (List.dropWhile_sublist (l := l) (p := isPyWs)).subset h1

-- Elements of an upper-cased list are fixed points of upperC.
theorem upperC_fixed_of_mem_pyUpperL {c : Char} {l : List Char}
    (h : c ∈ pyUpperL l) : upperC c = c := by
  unfold pyUpperL at h
  rw [List.mem_map] at h
  obtain ⟨d, _, hd⟩ := h
  rw [← hd]
  exact upperC_idem d

/-- C6: the normalizer upper-cases and trims its input and then repeatedly
strips the ordered suffix list ('-UC', '-C'), restarting after each removal,
until no suffix matches (so the result admits neither suffix); concretely
normalize("ABC-123-C-UC") = normalize("ABC-123-UC-C") = "ABC-123", and null
or empty input yields null. -/
theorem normalize_strips_suffixes :
    _normalize_duplicate_avid none = none ∧
    _normalize_duplicate_avid (some ("")) = none ∧
    _normalize_duplicate_avid (some ("ABC-123-C-UC")) = some ("ABC-123") ∧
    _normalize_duplicate_avid (some ("ABC-123-UC-C")) = some ("ABC-123") ∧
    ∀ s : String, s.data ≠ [] → ∃ r : String,
      _normalize_duplicate_avid (some s) = some r ∧
      ¬("-UC").data.isSuffixOf r.data ∧ ¬("-C").data.isSuffixOf r.data := by
  refine ⟨rfl, rfl, by decide, by decide, ?_⟩
  intro s hs
  refine ⟨⟨stripLoopF (pyStripL (pyUpperL s.data)).length (pyStripL (pyUpperL s.data))⟩, ?_, ?_⟩
  · rw [_normalize_duplicate_avid, if_neg hs]
  · exact stripLoopF_no_suffix _ _ (le_refl _)

/-- C6 witness: the general clause instantiated at the nonempty input "ABC". -/
theorem normalize_strips_suffixes_witness :
    ∃ r : String, _normalize_duplicate_avid (some ("ABC")) = some r ∧
      ¬("-UC").data.isSuffixOf r.data ∧ ¬("-C").data.isSuffixOf r.data :=
  normalize_strips_suffixes.2.2.2.2 ("ABC") (by decide)

/-- C7 counterexample: the normalizer is not idempotent on "-C": the value
normalizes to the empty string, and re-normalizing the empty string yields
null instead. -/
theorem normalize_not_idempotent :
    _normalize_duplicate_avid (_normalize_duplicate_avid (some ("-C"))) ≠
      _normalize_duplicate_avid (some ("-C")) := by
  decide

/-- C7 amended: the normalizer is idempotent on every input whose normalized
value is nonempty and carries no leading or trailing whitespace; in general
re-normalizing can differ (see the counterexample at "-C"). -/
theorem normalize_idempotent_of_clean :
    ∀ x r : String, _normalize_duplicate_avid (some x) = some r →
      r.data ≠ [] → pyStripL r.data = r.data →
      _normalize_duplicate_avid (some r) = some r := by
  intro x r hx hne hstrip
  have hxd : x.data ≠ [] := by
    intro h
    rw [_normalize_duplicate_avid, if_pos h] at hx
    exact Option.noConfusion hx
  rw [_normalize_duplicate_avid, if_neg hxd] at hx
  have hrd : r.data = stripLoopF (pyStripL (pyUpperL x.data)).length (pyStripL (pyUpperL x.data)) := by
    have := Option.some.inj hx
    rw [← this]
  -- r is a left-take of the trimmed upper-cased input, hence upper-case itself
  obtain ⟨n, hn, htake⟩ := stripLoopF_is_take (pyStripL (pyUpperL x.data)).length
    (pyStripL (pyUpperL x.data))
  have hupper : pyUpperL r.data = r.data := by
    have hmem : ∀ c ∈ r.data, upperC c = c := by
      intro c hc
      rw [hrd, htake] at hc
      have hc2 : c ∈ pyStripL (pyUpperL x.data) := (List.take_subset _ _) hc
      exact upperC_fixed_of_mem_pyUpperL (mem_pyStripL hc2)
    unfold pyUpperL
    calc r.data.map upperC = r.data.map id := List.map_congr_left hmem
    _ = r.data := List.map_id r.data
  have hnosuf := stripLoopF_no_suffix (pyStripL (pyUpperL x.data)).length
    (pyStripL (pyUpperL x.data)) (le_refl _)
  rw [← hrd] at hnosuf
  rw [_normalize_duplicate_avid, if_neg hne, hupper, hstrip,
    stripLoopF_fixed _ _ hnosuf.1 hnosuf.2]

/-- C7 amended witness: idempotence applied at the concrete input
"ABC-123-C", whose normalization "ABC-123" is nonempty and trimmed. -/
theorem normalize_idempotent_of_clean_witness :
    _normalize_duplicate_avid (some ("ABC-123")) = some ("ABC-123") :=
  normalize_idempotent_of_clean ("ABC-123-C") ("ABC-123") (by decide) (by decide) (by decide)

/-! ## Path helpers (os.path.split / basename / commonprefix, POSIX) -/

-- os.path.split(p)[0]: everything before the last '/', "" when there is none
def dirOf (p : String) : String :=
  ⟨((p.data.reverse.dropWhile (fun c => c != '/')).drop 1).reverse⟩

-- os.path.basename(p): everything after the last '/'
def baseOf (p : String) : String :=
  ⟨(p.data.reverse.takeWhile (fun c => c != '/')).reverse⟩

-- os.path.join(dirpath, name) for POSIX relative names
def pathJoin (a b : String) : String := a ++ ("/") ++ b

-- character-wise longest common prefix of two strings
def commonPre2 : List Char → List Char → List Char
  | a :: as, b :: bs => if a = b then a :: commonPre2 as bs else []
  | _, _ => []

-- os.path.commonprefix over a list (the min/max-lexicographic implementation
-- computes exactly the fold of the pairwise character-wise common prefix)
def commonPreAll : List (List Char) → List Char
  | [] => []
  | x :: xs => xs.foldl commonPre2 x

/-! ## Slice Detector (src/javsp/file.py lines 216-247)

The compiled pattern is  re_escape(prefix) + r'\s*([a-z\d])\s*'  with
re.IGNORECASE, applied with pattern.sub(r'\1', basename): every leftmost
non-overlapping occurrence of (literal prefix, optional whitespace, one
alphanumeric token, optional whitespace) is replaced by the token character.
re_escape comes from javsp/lib.py (not under src/); per spec section 4.3 it
escapes the prefix so that it matches literally, which is what dropCI does.
-/

-- the character class [a-z\d] under re.IGNORECASE
def isAlnumCI (c : Char) : Bool :=
  ('a' ≤ c && c ≤ 'z') || ('A' ≤ c && c ≤ 'Z') || ('0' ≤ c && c ≤ '9')

-- match the escaped literal prefix case-insensitively, returning the rest
def dropCI : List Char → List Char → Option (List Char)
  | [], cs => some cs
  | _ :: _, [] => none
  | p :: ps, c :: cs => if lowerC p = lowerC c then dropCI ps cs else none

-- one attempted match of the slice pattern at the head of cs; on success
-- returns the token character and the input after the match
def matchAt (pre cs : List Char) : Option (Char × List Char) :=
  match dropCI pre cs with
  | none => none
  | some r1 =>
    match r1.dropWhile isPyWs with
    | [] => none
    | c :: r2 => if isAlnumCI c then some (c, r2.dropWhile isPyWs) else none

-- pattern.sub(r'\1', s): scan left to right replacing each leftmost
-- non-overlapping match by its token. Every match consumes at least the
-- token character, so fuel = length of the scanned list suffices.
def subLoopF (pre : List Char) : Nat → List Char → List Char
  | _, [] => []
  | 0, l => l
  | fuel + 1, c :: cs =>
    match matchAt pre (c :: cs) with
    | some (tok, rest) => tok :: subLoopF pre fuel rest
    | none => c :: subLoopF pre fuel cs

def sliceSub (pre l : List Char) : List Char := subLoopF pre l.length l

-- remaining = [pattern.sub(r'\1', i).lower() for i in basenames]
def sliceRemaining (files : List String) : List (List Char) :=
  (files.map (fun f => (baseOf f).data)).map
    (fun b => pyLowerL (sliceSub (commonPreAll (files.map (fun f => (baseOf f).data))) b))

-- slices = [i[0] for i in remaining]  (Python would raise on an empty
-- remaining string, which needs an empty basename; theorems assume nonempty
-- basenames, making the default unreachable)
def sliceTokens (files : List String) : List Char :=
  (sliceRemaining files).map (fun r => r.headD ' ')

-- postfixes = [i[1:] for i in remaining]
def sliceTails (files : List String) : List (List Char) :=
  (sliceRemaining files).map (fun r => r.drop 1)

-- sorted(slices): Python sorts characters by code point
def sortedTokens (files : List String) : List Char :=
  List.insertionSort (· ≤ ·) (sliceTokens files)

-- The slice validity checks and reordering of lines 226-247 for one group
-- whose files passed the directory check: returns the reordered file list on
-- success, none when the group must be treated as an unresolved duplicate.
def sliceCheck (files : List String) : Option (List String) :=
  if (sliceTails files).dedup.length ≠ 1 ∨
     (sliceTokens files).length ≠ (sliceTokens files).dedup.length then none
  else if ¬((sortedTokens files).headD ' ' = '0' ∨ (sortedTokens files).headD ' ' = '1' ∨
            (sortedTokens files).headD ' ' = 'a') ∨
          ((sortedTokens files).getLastD ' ').toNat ≠
            ((sortedTokens files).headD ' ').toNat + (sortedTokens files).length - 1 then none
  else some ((sortedTokens files).map
    (fun c => (files.get? (List.indexOf c (sliceTokens files))).getD ("")))

-- Lines 204-247: process every group of dic; singletons pass through, a
-- group spanning several directories or failing the slice checks moves to
-- non_slice_dup, an accepted group is replaced by its reordered file list.
-- (The only branch not modelled is the re.error guard of lines 219-225: the
-- escaped prefix always compiles, the spec also assumes so.)
def dupPhase : List (String × List String) → List (String × List String) × List (String × List String)
  | [] => ([], [])
  | (avid, files) :: rest =>
    let r := dupPhase rest
    if files.length = 1 then ((avid, files) :: r.1, r.2)
    else if 1 < (files.map dirOf).dedup.length then (r.1, (avid, files) :: r.2)
    else
      match sliceCheck files with
      | some ordered => ((avid, ordered) :: r.1, r.2)
      | none => (r.1, (avid, files) :: r.2)

-- os.path.relpath(f, root) for the files this scan produces: every file path
-- is built as root/.../name by the walk, so the relative path is the path
-- with "root/" removed (general os.path.relpath is not needed here).
def relpathM (root f : String) : String :=
  if (root.data ++ ['/']).isPrefixOf f.data then ⟨f.data.drop (root.data.length + 1)⟩ else f

-- msg += '  ' + os.path.relpath(f, root) + '\n' for every file of a group
def dupFileLine (root f : String) : String := ("  ") ++ relpathM root f ++ ("\n")

-- msg += f'{avid}: \n' followed by the group's file lines
def dupGroupMsg (root : String) (p : String × List String) : String :=
  p.1 ++ (": \n") ++ p.2.foldl (fun a f => a ++ dupFileLine root f) ("")

-- Lines 249-256: the consolidated error message for unresolved duplicates.
def dupMsg (root : String) (ns : List (String × List String)) : String :=
  ns.foldl (fun acc p => acc ++ dupGroupMsg root p) ("")

/-! ### Lemmas about len(set(...)) modelled by List.dedup -/

theorem dedup_length_one_iff {α : Type} [DecidableEq α] {l : List α} (h : l ≠ []) :
    l.dedup.length = 1 ↔ ∀ a ∈ l, ∀ b ∈ l, a = b := by
  constructor
  · intro h1 a ha b hb
    obtain ⟨x, hx⟩ := List.length_eq_one.mp h1
    have ha2 : a ∈ l.dedup := List.mem_dedup.mpr ha
    have hb2 : b ∈ l.dedup := List.mem_dedup.mpr hb
    rw [hx, List.mem_singleton] at ha2 hb2
    rw [ha2, hb2]
  · intro hall
    obtain ⟨c, m, hm⟩ := List.exists_cons_of_ne_nil h
    have hc : c ∈ l.dedup := List.mem_dedup.mpr (by rw [hm]; exact List.mem_cons_self c m)
    match he : l.dedup with
    | [] => rw [he] at hc; exact absurd hc (List.not_mem_nil c)
    | [x] => rfl
    | x :: y :: t =>
      have hnd := l.nodup_dedup
      rw [he] at hnd
      have hx : x ∈ l := List.mem_dedup.mp (by rw [he]; exact List.mem_cons_self _ _)
      have hy : y ∈ l := List.mem_dedup.mp
        (by rw [he]; exact List.mem_cons_of_mem _ (List.mem_cons_self _ _))
      have : x = y := hall x hx y hy
      rw [List.nodup_cons] at hnd
      exact absurd (this ▸ List.mem_cons_self y t) hnd.1

theorem two_le_dedup_length {α : Type} [DecidableEq α] {l : List α} {a b : α}
    (ha : a ∈ l) (hb : b ∈ l) (hab : a ≠ b) : 2 ≤ l.dedup.length := by
  have ha2 : a ∈ l.dedup := List.mem_dedup.mpr ha
  have hb2 : b ∈ l.dedup := List.mem_dedup.mpr hb
  match he : l.dedup with
  | [] => rw [he] at ha2; exact absurd ha2 (List.not_mem_nil a)
  | [x] =>
    rw [he, List.mem_singleton] at ha2 hb2
    exact absurd (ha2.trans hb2.symm) hab
  | x :: y :: t => simp

theorem dedup_length_eq_iff_nodup {α : Type} [DecidableEq α] {l : List α} :
    l.length = l.dedup.length ↔ l.Nodup := by
  constructor
  · intro h
    rw [← List.dedup_eq_self]
    exact (List.Sublist.eq_of_length l.dedup_sublist h.symm)
  · intro h
    rw [List.dedup_eq_self.mpr h]

/-! ### Contiguity of a sorted duplicate-free character run -/

-- A strictly increasing list of naturals grows at least by one per step.
theorem pairwise_lt_getD_le {ns : List Nat} (h : ns.Pairwise (· < ·)) :
    ∀ i j, i ≤ j → j < ns.length → ns.getD i 0 + (j - i) ≤ ns.getD j 0 := by
  induction ns with
  | nil => intro i j _ hj; exact absurd hj (by simp)
  | cons a t ih =>
    intro i j hij hj
    rw [List.pairwise_cons] at h
    match i, j with
    | 0, 0 => simp
    | 0, j + 1 =>
      have hjt : j < t.length := by simpa using hj
      have ht : t.getD 0 0 + j ≤ t.getD j 0 := by
        have := ih h.2 0 j (Nat.zero_le j) hjt
        simpa using this
      have hat : a < t.getD 0 0 := by
        have h0 : 0 < t.length := by omega
        rw [List.getD_eq_getElem _ _ h0]
        exact h.1 _ (t.getElem_mem h0)
      rw [List.getD_cons_zero, List.getD_cons_succ]
      omega
    | i + 1, j + 1 =>
      have hjt : j < t.length := by simpa using hj
      have := ih h.2 i j (by omega) hjt
      rw [List.getD_cons_succ, List.getD_cons_succ]
      omega

-- Char order coincides with the order of the code points.
theorem char_lt_toNat {a b : Char} (h : a < b) : a.toNat < b.toNat := h

-- The claim's phrasing of the slice-numbering rule: the sorted, case-folded
-- tokens form one contiguous code-point run starting at '0', '1' or 'a'
-- (code points exactly first, first+1, ..., first+n-1).
def contiguousRun (l : List Char) : Prop :=
  (l.headD ' ' = '0' ∨ l.headD ' ' = '1' ∨ l.headD ' ' = 'a') ∧
  ∀ i, (h : i < l.length) → (l.get ⟨i, h⟩).toNat = (l.headD ' ').toNat + i

theorem headD_eq_get {l : List Char} (h : 0 < l.length) (d : Char) :
    l.headD d = l.get ⟨0, h⟩ := by
  match l with
  | a :: t => rfl

theorem getLastD_eq_get {l : List Char} (h : 0 < l.length) (d : Char) :
    l.getLastD d = l.get ⟨l.length - 1, by omega⟩ := by
  rw [List.getLastD_eq_getLast?, List.getLast?_eq_getElem?]
  have h2 : l.length - 1 < l.length := by omega
  rw [List.getElem?_eq_getElem h2]
  rfl

-- For a sorted duplicate-free run, the code's endpoint test (last code point
-- equals first + n - 1) is equivalent to full contiguity.
theorem sorted_nodup_contiguous_iff {l : List Char}
    (hs : l.Sorted (· ≤ ·)) (hn : l.Nodup) (hne : 0 < l.length) :
    (l.getLastD ' ').toNat = (l.headD ' ').toNat + l.length - 1 ↔
    ∀ i, (h : i < l.length) → (l.get ⟨i, h⟩).toNat = (l.headD ' ').toNat + i := by
  have hlt : l.Pairwise (· < ·) := by
    have hand := List.Pairwise.and hs hn
    exact hand.imp (fun hab => lt_of_le_of_ne hab.1 hab.2)
  have hmap : (l.map Char.toNat).Pairwise (· < ·) := by
    rw [List.pairwise_map]
    exact hlt.imp (fun hab => char_lt_toNat hab)
  have hlen : (l.map Char.toNat).length = l.length := l.length_map Char.toNat
  have hgetD : ∀ i, (h : i < l.length) → (l.map Char.toNat).getD i 0 = (l.get ⟨i, h⟩).toNat := by
    intro i h
    rw [List.getD_eq_getElem _ _ (by omega), List.getElem_map]
    rfl
  have hhead : (l.headD ' ').toNat = (l.map Char.toNat).getD 0 0 := by
    rw [hgetD 0 hne, headD_eq_get hne]
  have hlast : (l.getLastD ' ').toNat = (l.map Char.toNat).getD (l.length - 1) 0 := by
    rw [hgetD (l.length - 1) (by omega), getLastD_eq_get hne]
  constructor
  · intro harith i hi
    have hup : (l.map Char.toNat).getD 0 0 + i ≤ (l.map Char.toNat).getD i 0 := by
      have := pairwise_lt_getD_le hmap 0 i (Nat.zero_le i) (by omega)
      simpa using this
    have hdown : (l.map Char.toNat).getD i 0 + (l.length - 1 - i) ≤
        (l.map Char.toNat).getD (l.length - 1) 0 :=
      pairwise_lt_getD_le hmap i (l.length - 1) (by omega) (by omega)
    rw [← hgetD i hi, hhead]
    rw [hlast, hhead] at harith
    omega
  · intro hcont
    rw [getLastD_eq_get hne, hcont (l.length - 1) (by omega)]
    omega

/-! ### Slice-check characterization lemmas -/

theorem sliceRemaining_length (files : List String) :
    (sliceRemaining files).length = files.length := by
  unfold sliceRemaining
  rw [List.length_map, List.length_map]

theorem sliceTokens_length (files : List String) :
    (sliceTokens files).length = files.length := by
  unfold sliceTokens
  rw [List.length_map, sliceRemaining_length]

theorem sliceTails_length (files : List String) :
    (sliceTails files).length = files.length := by
  unfold sliceTails
  rw [List.length_map, sliceRemaining_length]

theorem sortedTokens_perm (files : List String) :
    (sortedTokens files).Perm (sliceTokens files) :=
  List.perm_insertionSort _ _

theorem sortedTokens_length (files : List String) :
    (sortedTokens files).length = files.length := by
  rw [(sortedTokens_perm files).length_eq, sliceTokens_length]

theorem sortedTokens_sorted (files : List String) :
    (sortedTokens files).Sorted (· ≤ ·) :=
  List.sorted_insertionSort _ _

-- The reordered output is a permutation of the original group.
theorem reorder_perm_of_nodup {files : List String}
    (hnd : (sliceTokens files).Nodup) :
    ((sortedTokens files).map
      (fun c => ((files.get? (List.indexOf c (sliceTokens files))).getD ("")))).Perm files := by
  have hmap : ((sliceTokens files).map
      (fun c => ((files.get? (List.indexOf c (sliceTokens files))).getD ("")))) = files := by
    apply List.ext_getElem
    · rw [List.length_map, sliceTokens_length]
    · intro i h1 h2
      rw [List.getElem_map, List.indexOf_getElem hnd, List.get?_eq_get h2]
      rfl
  have hperm := (sortedTokens_perm files).map
    (fun c => ((files.get? (List.indexOf c (sliceTokens files))).getD ("")))
  rw [hmap] at hperm
  exact hperm

-- Shape of one dupPhase step: the head group is either kept (possibly with a
-- reordered file list) or moved to the duplicate bucket; the tail is
-- processed independently.
theorem dupPhase_cons_shape (p : String × List String) (rest : List (String × List String)) :
    (∃ v, (dupPhase (p :: rest)).1 = (p.1, v) :: (dupPhase rest).1 ∧
          (dupPhase (p :: rest)).2 = (dupPhase rest).2) ∨
    ((dupPhase (p :: rest)).1 = (dupPhase rest).1 ∧
     (dupPhase (p :: rest)).2 = p :: (dupPhase rest).2) := by
  match p with
  | (avid, files) =>
    rw [dupPhase]
    by_cases h1 : files.length = 1
    · rw [if_pos h1]
      exact Or.inl ⟨files, rfl, rfl⟩
    · rw [if_neg h1]
      by_cases h2 : 1 < (files.map dirOf).dedup.length
      · rw [if_pos h2]
        exact Or.inr ⟨rfl, rfl⟩
      · rw [if_neg h2]
        match hs : sliceCheck files with
        | some ordered => exact Or.inl ⟨ordered, rfl, rfl⟩
        | none => exact Or.inr ⟨rfl, rfl⟩

-- Keys of the kept groups form a sublist of the input keys.
theorem dupPhase_keys_sublist (dic : List (String × List String)) :
    ((dupPhase dic).1.map Prod.fst).Sublist (dic.map Prod.fst) := by
  induction dic with
  | nil => exact List.Sublist.refl _
  | cons p rest ih =>
    rcases dupPhase_cons_shape p rest with ⟨v, h1, _⟩ | ⟨h1, _⟩
    · rw [h1, List.map_cons, List.map_cons]
      exact ih.cons₂ p.1
    · rw [h1, List.map_cons]
      exact ih.cons p.1

-- A group that the slice phase rejects is dropped from the kept mapping and
-- recorded, with its files, in the duplicate bucket.
theorem dupPhase_rejected {dic : List (String × List String)} {avid : String}
    {files : List String} (hkeys : (dic.map Prod.fst).Nodup)
    (hmem : (avid, files) ∈ dic) (hlen : files.length ≠ 1)
    (hrej : 1 < (files.map dirOf).dedup.length ∨ sliceCheck files = none) :
    avid ∉ (dupPhase dic).1.map Prod.fst ∧ (avid, files) ∈ (dupPhase dic).2 := by
  induction dic with
  | nil => exact absurd hmem (List.not_mem_nil _)
  | cons p rest ih =>
    rw [List.map_cons, List.nodup_cons] at hkeys
    rcases List.mem_cons.mp hmem with heq | htail
    · subst heq
      have hstep : dupPhase ((avid, files) :: rest) =
          ((dupPhase rest).1, (avid, files) :: (dupPhase rest).2) := by
        by_cases hdir : 1 < (files.map dirOf).dedup.length
        · rw [dupPhase, if_neg hlen, if_pos hdir]
        · have hsc : sliceCheck files = none := by
            rcases hrej with h | h
            · exact absurd h hdir
            · exact h
          rw [dupPhase, if_neg hlen, if_neg hdir, hsc]
      rw [hstep]
      constructor
      · intro hin
        exact hkeys.1 ((dupPhase_keys_sublist rest).subset hin)
      · exact List.mem_cons_self _ _
    · have hrec := ih hkeys.2 htail
      have havid : avid ∈ rest.map Prod.fst :=
        List.mem_map.mpr ⟨(avid, files), htail, rfl⟩
      have hne : p.1 ≠ avid := by
        intro h
        rw [h] at hkeys
        exact hkeys.1 havid
      rcases dupPhase_cons_shape p rest with ⟨v, h1, h2⟩ | ⟨h1, h2⟩
      · rw [h1, h2]
        refine ⟨?_, hrec.2⟩
        rw [List.map_cons]
        intro hin
        rcases List.mem_cons.mp hin with h | h
        · exact hne h.symm
        · exact hrec.1 h
      · rw [h1, h2]
        refine ⟨hrec.1, List.mem_cons_of_mem _ hrec.2⟩

-- The acceptance condition of the slice checks, stated as the spec phrases
-- it: identical non-token remainders, pairwise-distinct tokens, and a
-- contiguous sorted code-point run anchored at '0', '1' or 'a'.
theorem sliceCheck_isSome_iff {files : List String} (h2 : 2 ≤ files.length) :
    (sliceCheck files).isSome ↔
      ((∀ p ∈ sliceTails files, ∀ q ∈ sliceTails files, p = q) ∧
       (sliceTokens files).Nodup ∧
       contiguousRun (sortedTokens files)) := by
  have hTne : sliceTails files ≠ [] := by
    intro h
    have := sliceTails_length files
    rw [h] at this
    simp at this
    omega
  have hSpos : 0 < (sortedTokens files).length := by
    rw [sortedTokens_length]
    omega
  unfold sliceCheck
  by_cases hA : (sliceTails files).dedup.length ≠ 1 ∨
      (sliceTokens files).length ≠ (sliceTokens files).dedup.length
  · rw [if_pos hA]
    simp only [Option.isSome_none, Bool.false_eq_true, false_iff]
    intro hrhs
    rcases hA with hA | hA
    · exact hA ((dedup_length_one_iff hTne).mpr hrhs.1)
    · exact hA (dedup_length_eq_iff_nodup.mpr hrhs.2.1)
  · push_neg at hA
    rw [if_neg (by push_neg; exact hA)]
    have huni : ∀ p ∈ sliceTails files, ∀ q ∈ sliceTails files, p = q :=
      (dedup_length_one_iff hTne).mp hA.1
    have hnd : (sliceTokens files).Nodup := dedup_length_eq_iff_nodup.mp hA.2
    have hndS : (sortedTokens files).Nodup := ((sortedTokens_perm files).nodup_iff).mpr hnd
    have hcontig := sorted_nodup_contiguous_iff (sortedTokens_sorted files) hndS hSpos
    by_cases hB : ¬((sortedTokens files).headD ' ' = '0' ∨ (sortedTokens files).headD ' ' = '1' ∨
          (sortedTokens files).headD ' ' = 'a') ∨
        ((sortedTokens files).getLastD ' ').toNat ≠
          ((sortedTokens files).headD ' ').toNat + (sortedTokens files).length - 1
    · rw [if_pos hB]
      simp only [Option.isSome_none, Bool.false_eq_true, false_iff]
      intro hrhs
      rcases hB with hB | hB
      · exact hB hrhs.2.2.1
      · exact hB (hcontig.mpr hrhs.2.2.2)
    · rw [if_neg hB]
      push_neg at hB
      simp only [Option.isSome_some, true_iff]
      exact ⟨huni, hnd, hB.1, hcontig.mp hB.2⟩

-- On acceptance the returned list is exactly the input reordered by
-- ascending slice token.
theorem sliceCheck_some_eq {files out : List String}
    (h : sliceCheck files = some out) :
    out = (sortedTokens files).map
      (fun c => ((files.get? (List.indexOf c (sliceTokens files))).getD (""))) ∧
    (sliceTokens files).Nodup := by
  unfold sliceCheck at h
  by_cases hA : (sliceTails files).dedup.length ≠ 1 ∨
      (sliceTokens files).length ≠ (sliceTokens files).dedup.length
  · rw [if_pos hA] at h
    exact absurd h (Option.noConfusion)
  · rw [if_neg hA] at h
    push_neg at hA
    by_cases hB : ¬((sortedTokens files).headD ' ' = '0' ∨ (sortedTokens files).headD ' ' = '1' ∨
          (sortedTokens files).headD ' ' = 'a') ∨
        ((sortedTokens files).getLastD ' ').toNat ≠
          ((sortedTokens files).headD ' ').toNat + (sortedTokens files).length - 1
    · rw [if_pos hB] at h
      exact absurd h (Option.noConfusion)
    · rw [if_neg hB] at h
      exact ⟨(Option.some.inj h).symm, dedup_length_eq_iff_nodup.mp hA.2⟩

/-- C1: for a group of two or more files sharing one identifier in a single
directory, the slice check of scan_movies accepts exactly when, after the
common-prefix pattern substitution, every file's non-token remainder is
identical, the slice tokens are pairwise distinct, and the case-folded tokens
sorted ascending form a contiguous code-point run starting at '0', '1' or 'a'
(code points exactly first, first+1, ..., first+n-1); on acceptance the group
comes back reordered by ascending slice token (a permutation of the group,
so movie.a.mp4 / movie.c.mp4 / movie.b.mp4 return ordered [a, b, c]), and on
any failed check the whole group is dropped from the kept mapping and
recorded as an unresolved duplicate. -/
theorem slice_group_resolution :
    (∀ files : List String, 2 ≤ files.length →
      ((sliceCheck files).isSome ↔
        ((∀ p ∈ sliceTails files, ∀ q ∈ sliceTails files, p = q) ∧
         (sliceTokens files).Nodup ∧
         contiguousRun (sortedTokens files))) ∧
      (∀ out, sliceCheck files = some out →
        out = (sortedTokens files).map
          (fun c => ((files.get? (List.indexOf c (sliceTokens files))).getD (""))) ∧
        out.Perm files)) ∧
    (∀ (dic : List (String × List String)) (avid : String) (files : List String),
      (dic.map Prod.fst).Nodup → (avid, files) ∈ dic → 2 ≤ files.length →
      (∀ f ∈ files, ∀ g ∈ files, dirOf f = dirOf g) →
      sliceCheck files = none →
      avid ∉ (dupPhase dic).1.map Prod.fst ∧ (avid, files) ∈ (dupPhase dic).2) ∧
    sliceCheck [("d/movie.a.mp4"), ("d/movie.c.mp4"), ("d/movie.b.mp4")] =
      some [("d/movie.a.mp4"), ("d/movie.b.mp4"), ("d/movie.c.mp4")] := by
  refine ⟨?_, ?_, by decide⟩
  · intro files h2
    refine ⟨sliceCheck_isSome_iff h2, ?_⟩
    intro out hout
    obtain ⟨heq, hnd⟩ := sliceCheck_some_eq hout
    refine ⟨heq, ?_⟩
    rw [heq]
    exact reorder_perm_of_nodup hnd
  · intro dic avid files hkeys hmem h2 hdir hsc
    have hfne : files ≠ [] := by
      intro h
      rw [h] at h2
      simp at h2
    have hmne : files.map dirOf ≠ [] := by
      intro h
      exact hfne (List.map_eq_nil_iff.mp h)
    have hone : (files.map dirOf).dedup.length = 1 := by
      apply (dedup_length_one_iff hmne).mpr
      intro a ha b hb
      obtain ⟨f, hf, hfa⟩ := List.mem_map.mp ha
      obtain ⟨g, hg, hgb⟩ := List.mem_map.mp hb
      rw [← hfa, ← hgb]
      exact hdir f hf g hg
    exact dupPhase_rejected hkeys hmem (by omega) (Or.inr hsc)

/-- C1 witness: the rejection clause applied to a concrete gapped group
(tokens a, b, x): the group is excluded and recorded as a duplicate. -/
theorem slice_group_resolution_witness :
    ("X") ∉ (dupPhase [(("X"), [("d/a.mp4"), ("d/b.mp4"), ("d/x.mp4")])]).1.map Prod.fst ∧
    (("X"), [("d/a.mp4"), ("d/b.mp4"), ("d/x.mp4")]) ∈
      (dupPhase [(("X"), [("d/a.mp4"), ("d/b.mp4"), ("d/x.mp4")])]).2 :=
  slice_group_resolution.2.1 [(("X"), [("d/a.mp4"), ("d/b.mp4"), ("d/x.mp4")])] ("X")
    [("d/a.mp4"), ("d/b.mp4"), ("d/x.mp4")]
    (by decide) (by decide) (by decide) (by decide) (by decide)

/-! ### Occurrence of a substring in the consolidated message -/

-- needle occurs (contiguously) somewhere inside hay
def occursIn (needle hay : String) : Prop :=
  ∃ a b : List Char, hay.data = a ++ (needle.data ++ b)

theorem occursIn_append_left {n s : String} (t : String) (h : occursIn n s) :
    occursIn n (s ++ t) := by
  obtain ⟨a, b, hab⟩ := h
  refine ⟨a, b ++ t.data, ?_⟩
  rw [String.data_append, hab]
  simp [List.append_assoc]

theorem occursIn_append_right {n t : String} (s : String) (h : occursIn n t) :
    occursIn n (s ++ t) := by
  obtain ⟨a, b, hab⟩ := h
  refine ⟨s.data ++ a, b, ?_⟩
  rw [String.data_append, hab]
  simp [List.append_assoc]

theorem occursIn_dupFileLine (root f : String) :
    occursIn (relpathM root f) (dupFileLine root f) := by
  refine ⟨("  ").data, ("\n").data, ?_⟩
  rw [dupFileLine, String.data_append, String.data_append]
  simp [List.append_assoc]

-- Folding right-appends preserves and creates occurrences.
theorem occursIn_foldl {g : String → String} {n : String} :
    ∀ (l : List String) (acc : String),
      (occursIn n acc ∨ ∃ f ∈ l, occursIn n (g f)) →
      occursIn n (l.foldl (fun a f => a ++ g f) acc) := by
  intro l
  induction l with
  | nil =>
    intro acc h
    rcases h with h | ⟨f, hf, _⟩
    · exact h
    · exact absurd hf (List.not_mem_nil f)
  | cons x t ih =>
    intro acc h
    rw [List.foldl_cons]
    apply ih
    rcases h with h | ⟨f, hf, hocc⟩
    · exact Or.inl (occursIn_append_left _ h)
    · rcases List.mem_cons.mp hf with heq | htail
      · subst heq
        exact Or.inl (occursIn_append_right _ hocc)
      · exact Or.inr ⟨f, htail, hocc⟩

theorem occursIn_foldl_pairs {g : String × List String → String} {n : String} :
    ∀ (l : List (String × List String)) (acc : String),
      (occursIn n acc ∨ ∃ p ∈ l, occursIn n (g p)) →
      occursIn n (l.foldl (fun a p => a ++ g p) acc) := by
  intro l
  induction l with
  | nil =>
    intro acc h
    rcases h with h | ⟨p, hp, _⟩
    · exact h
    · exact absurd hp (List.not_mem_nil p)
  | cons x t ih =>
    intro acc h
    rw [List.foldl_cons]
    apply ih
    rcases h with h | ⟨p, hp, hocc⟩
    · exact Or.inl (occursIn_append_left _ h)
    · rcases List.mem_cons.mp hp with heq | htail
      · subst heq
        exact Or.inl (occursIn_append_right _ hocc)
      · exact Or.inr ⟨p, htail, hocc⟩

-- Every file of every recorded duplicate group appears (as its relative
-- path) inside the consolidated message.
theorem occursIn_dupMsg {root f avid : String} {files : List String}
    {ns : List (String × List String)}
    (hmem : (avid, files) ∈ ns) (hf : f ∈ files) :
    occursIn (relpathM root f) (dupMsg root ns) := by
  rw [dupMsg]
  apply occursIn_foldl_pairs ns ("")
  refine Or.inr ⟨(avid, files), hmem, ?_⟩
  rw [dupGroupMsg]
  apply occursIn_append_right
  apply occursIn_foldl files ("")
  exact Or.inr ⟨f, hf, occursIn_dupFileLine root f⟩

/-- C2: a group of two or more files for one identifier spanning more than
one distinct parent directory is rejected outright: it is dropped from the
kept mapping, recorded as an unresolved duplicate, and every member file's
relative path appears in the consolidated diagnostic message (the phase is a
total function, so the scan continues over the remaining groups). -/
theorem cross_directory_duplicate_rejected :
    ∀ (root : String) (dic : List (String × List String)) (avid : String)
      (files : List String),
      (dic.map Prod.fst).Nodup → (avid, files) ∈ dic → 2 ≤ files.length →
      (∃ f ∈ files, ∃ g ∈ files, dirOf f ≠ dirOf g) →
      avid ∉ (dupPhase dic).1.map Prod.fst ∧
      (avid, files) ∈ (dupPhase dic).2 ∧
      ∀ f ∈ files, occursIn (relpathM root f) (dupMsg root (dupPhase dic).2) := by
  intro root dic avid files hkeys hmem h2 hdirs
  obtain ⟨f0, hf0, g0, hg0, hne⟩ := hdirs
  have hdir : 1 < (files.map dirOf).dedup.length :=
    two_le_dedup_length (List.mem_map.mpr ⟨f0, hf0, rfl⟩)
      (List.mem_map.mpr ⟨g0, hg0, rfl⟩) hne
  obtain ⟨hout, hin⟩ := dupPhase_rejected hkeys hmem (by omega) (Or.inl hdir)
  refine ⟨hout, hin, ?_⟩
  intro f hf
  exact occursIn_dupMsg hin hf

/-- C2 witness: a concrete identifier with files under two directories is
excluded, recorded, and both relative paths occur in the message. -/
theorem cross_directory_duplicate_rejected_witness :
    ("X") ∉ (dupPhase [(("X"), [("r/A/x.mp4"), ("r/B/y.mp4")])]).1.map Prod.fst ∧
    (("X"), [("r/A/x.mp4"), ("r/B/y.mp4")]) ∈
      (dupPhase [(("X"), [("r/A/x.mp4"), ("r/B/y.mp4")])]).2 ∧
    ∀ f ∈ [("r/A/x.mp4"), ("r/B/y.mp4")],
      occursIn (relpathM ("r") f)
        (dupMsg ("r") (dupPhase [(("X"), [("r/A/x.mp4"), ("r/B/y.mp4")])]).2) :=
  cross_directory_duplicate_rejected ("r") [(("X"), [("r/A/x.mp4"), ("r/B/y.mp4")])]
    ("X") [("r/A/x.mp4"), ("r/B/y.mp4")] (by decide) (by decide) (by decide)
    ⟨("r/A/x.mp4"), by decide, ("r/B/y.mp4"), by decide, by decide⟩

/-! ## Small-file merge phase (src/javsp/file.py lines 184-203)

After the walk, every file set aside for being below the size threshold is
re-examined: its identifier is extracted from the bare filename; if that
identifier already has a group in dic the bucket's paths are appended to the
group, otherwise the bucket stays skipped (and, when an identifier exists,
its name is noted for the summary line). Finally the remaining buckets are
sorted by filename with sorted path lists, exactly as line 195 does before
the summary count is reported.
-/

def hasKey : List (String × List String) → String → Bool
  | [], _ => false
  | (k', _) :: rest, k => k' == k || hasKey rest k

def lookupD : List (String × List String) → String → List String
  | [], _ => []
  | (k', v) :: rest, k => if k' = k then v else lookupD rest k

-- dict[k].extend(vs) when k is present, dict[k] = vs otherwise (insertion at
-- the end, matching Python dict insertion order)
def appendAssoc : List (String × List String) → String → List String → List (String × List String)
  | [], k, vs => [(k, vs)]
  | (k', v) :: rest, k, vs =>
    if k' = k then (k', v ++ vs) :: rest else (k', v) :: appendAssoc rest k vs

def sortStr (l : List String) : List String := List.insertionSort (· ≤ ·) l

-- The loop of lines 186-193 over the small_videos buckets, threading dic.
-- Returns (dic, remaining small buckets, has_avid names in order).
def smallLoop (f : String → Option String) :
    List (String × List String) → List (String × List String) →
    List (String × List String) × List (String × List String) × List String
  | [], dic => (dic, [], [])
  | (name, paths) :: rest, dic =>
    match f name with
    | some avid =>
      if hasKey dic avid then smallLoop f rest (appendAssoc dic avid paths)
      else
        ((smallLoop f rest dic).1, (name, paths) :: (smallLoop f rest dic).2.1,
         name :: (smallLoop f rest dic).2.2)
    | none =>
      ((smallLoop f rest dic).1, (name, paths) :: (smallLoop f rest dic).2.1,
       (smallLoop f rest dic).2.2)

-- Lines 184-195: the merge loop followed by the sorting of the surviving
-- buckets (sorted dict of sorted path lists).
def smallPhase (f : String → Option String) (small dic : List (String × List String)) :
    List (String × List String) × List (String × List String) × List String :=
  ((smallLoop f small dic).1,
   List.insertionSort (fun p q => p.1 ≤ q.1)
     ((smallLoop f small dic).2.1.map (fun p => (p.1, sortStr p.2))),
   (smallLoop f small dic).2.2)


/-! ### Small-phase lemmas -/

theorem lookupD_appendAssoc_self (m : List (String × List String)) (k : String)
    (vs : List String) : lookupD (appendAssoc m k vs) k = lookupD m k ++ vs := by
  induction m with
  | nil => simp [appendAssoc, lookupD]
  | cons p rest ih =>
    match p with
    | (k', v) =>
      by_cases h : k' = k
      · rw [appendAssoc, if_pos h, lookupD, if_pos h, lookupD, if_pos h]
      · rw [appendAssoc, if_neg h, lookupD, if_neg h, lookupD, if_neg h, ih]

theorem lookupD_appendAssoc_other {m : List (String × List String)} {k k2 : String}
    (vs : List String) (hne : k ≠ k2) :
    lookupD (appendAssoc m k2 vs) k = lookupD m k := by
  induction m with
  | nil =>
    simp [appendAssoc, lookupD, hne.symm]
  | cons p rest ih =>
    match p with
    | (k', v) =>
      by_cases h : k' = k2
      · have h2 : ¬k' = k := by
          rw [h]
          intro hh
          exact hne hh.symm
        rw [appendAssoc, if_pos h, lookupD, if_neg h2, lookupD, if_neg h2]
      · by_cases h3 : k' = k
        · rw [appendAssoc, if_neg h, lookupD, if_pos h3, lookupD, if_pos h3]
        · rw [appendAssoc, if_neg h, lookupD, if_neg h3, lookupD, if_neg h3, ih]

theorem hasKey_appendAssoc {m : List (String × List String)} {k2 : String}
    (hk : hasKey m k2 = true) (k : String) (vs : List String) :
    hasKey (appendAssoc m k2 vs) k = hasKey m k := by
  induction m with
  | nil => simp [hasKey] at hk
  | cons p rest ih =>
    match p with
    | (k', v) =>
      rw [hasKey] at hk
      by_cases h : k' = k2
      · rw [appendAssoc, if_pos h, hasKey, hasKey]
      · have hk2 : hasKey rest k2 = true := by
          rcases Bool.or_eq_true_iff.mp hk with hh | hh
          · exact absurd (beq_iff_eq.mp hh) h
          · exact hh
        rw [appendAssoc, if_neg h, hasKey, hasKey, ih hk2]

theorem smallLoop_dic_mono (f : String → Option String) :
    ∀ (t dic : List (String × List String)) (k p : String),
      p ∈ lookupD dic k → p ∈ lookupD (smallLoop f t dic).1 k := by
  intro t
  induction t with
  | nil =>
    intro dic k p hp
    exact hp
  | cons b rest ih =>
    intro dic k p hp
    match b with
    | (name, paths) =>
      cases hfn : f name with
      | some avid =>
        simp only [smallLoop, hfn]
        by_cases hk : hasKey dic avid = true
        · rw [if_pos hk]
          apply ih
          by_cases hak : k = avid
          · rw [hak, lookupD_appendAssoc_self]
            rw [hak] at hp
            exact List.mem_append_left _ hp
          · rw [lookupD_appendAssoc_other _ hak]
            exact hp
        · rw [if_neg hk]
          exact ih dic k p hp
      | none =>
        simp only [smallLoop, hfn]
        exact ih dic k p hp

theorem smallLoop_hasKey (f : String → Option String) :
    ∀ (t dic : List (String × List String)) (k : String),
      hasKey (smallLoop f t dic).1 k = hasKey dic k := by
  intro t
  induction t with
  | nil =>
    intro dic k
    rfl
  | cons b rest ih =>
    intro dic k
    match b with
    | (name, paths) =>
      cases hfn : f name with
      | some avid =>
        simp only [smallLoop, hfn]
        by_cases hk : hasKey dic avid = true
        · rw [if_pos hk, ih, hasKey_appendAssoc hk]
        · rw [if_neg hk]
          exact ih dic k
      | none =>
        simp only [smallLoop, hfn]
        exact ih dic k

theorem smallLoop_rem_keys (f : String → Option String) :
    ∀ (t dic : List (String × List String)),
      ((smallLoop f t dic).2.1.map Prod.fst).Sublist (t.map Prod.fst) := by
  intro t
  induction t with
  | nil =>
    intro dic
    exact List.Sublist.refl _
  | cons b rest ih =>
    intro dic
    match b with
    | (name, paths) =>
      cases hfn : f name with
      | some avid =>
        simp only [smallLoop, hfn]
        by_cases hk : hasKey dic avid = true
        · rw [if_pos hk]
          exact (ih _).cons name
        · rw [if_neg hk]
          rw [List.map_cons, List.map_cons]
          exact (ih dic).cons₂ name
      | none =>
        simp only [smallLoop, hfn]
        rw [List.map_cons, List.map_cons]
        exact (ih dic).cons₂ name

theorem smallLoop_processed (f : String → Option String) :
    ∀ (small dic : List (String × List String)) (name : String) (paths : List String),
      (small.map Prod.fst).Nodup → (name, paths) ∈ small →
      (∀ avid, f name = some avid → hasKey dic avid = true →
        (∀ p ∈ paths, p ∈ lookupD (smallLoop f small dic).1 avid) ∧
        name ∉ (smallLoop f small dic).2.1.map Prod.fst) ∧
      ((∀ avid, f name = some avid → hasKey dic avid = false) →
        (name, paths) ∈ (smallLoop f small dic).2.1) := by
  intro small
  induction small with
  | nil =>
    intro dic name paths _ hmem
    exact absurd hmem (List.not_mem_nil _)
  | cons b t ih =>
    intro dic name paths hkeys hmem
    match b with
    | (n0, p0) =>
      rw [List.map_cons, List.nodup_cons] at hkeys
      rcases List.mem_cons.mp hmem with hhead | htail
      · have hn : name = n0 := (Prod.mk.injEq _ _ _ _ ▸ hhead).1
        have hp : paths = p0 := (Prod.mk.injEq _ _ _ _ ▸ hhead).2
        subst hn
        subst hp
        constructor
        · intro avid hfn hk
          simp only [smallLoop, hfn, if_pos hk]
          constructor
          · intro p hpmem
            apply smallLoop_dic_mono
            rw [lookupD_appendAssoc_self]
            exact List.mem_append_right _ hpmem
          · intro hin
            exact hkeys.1 ((smallLoop_rem_keys f t _).subset hin)
        · intro hnone
          cases hfn : f name with
          | some avid =>
            have hk := hnone avid hfn
            have hk2 : ¬hasKey dic avid = true := by
              rw [hk]
              exact Bool.false_ne_true
            simp only [smallLoop, hfn, if_neg hk2]
            exact List.mem_cons_self _ _
          | none =>
            simp only [smallLoop, hfn]
            exact List.mem_cons_self _ _
      · have hnn0 : name ≠ n0 := by
          intro h
          apply hkeys.1
          rw [← h]
          exact List.mem_map.mpr ⟨(name, paths), htail, rfl⟩
        cases hfn0 : f n0 with
        | some avid0 =>
          by_cases hk0 : hasKey dic avid0 = true
          · simp only [smallLoop, hfn0, if_pos hk0]
            have := ih (appendAssoc dic avid0 p0) name paths hkeys.2 htail
            constructor
            · intro avid hfn hk
              exact this.1 avid hfn (by rw [hasKey_appendAssoc hk0]; exact hk)
            · intro hnone
              exact this.2 (fun avid hfn => by
                rw [hasKey_appendAssoc hk0]
                exact hnone avid hfn)
          · simp only [smallLoop, hfn0, if_neg hk0]
            have := ih dic name paths hkeys.2 htail
            constructor
            · intro avid hfn hk
              refine ⟨(this.1 avid hfn hk).1, ?_⟩
              rw [List.map_cons]
              intro hin
              rcases List.mem_cons.mp hin with h | h
              · exact hnn0 h
              · exact (this.1 avid hfn hk).2 h
            · intro hnone
              exact List.mem_cons_of_mem _ (this.2 hnone)
        | none =>
          simp only [smallLoop, hfn0]
          have := ih dic name paths hkeys.2 htail
          constructor
          · intro avid hfn hk
            refine ⟨(this.1 avid hfn hk).1, ?_⟩
            rw [List.map_cons]
            intro hin
            rcases List.mem_cons.mp hin with h | h
            · exact hnn0 h
            · exact (this.1 avid hfn hk).2 h
          · intro hnone
            exact List.mem_cons_of_mem _ (this.2 hnone)

theorem smallPhase_rem_keys_perm (f : String → Option String)
    (small dic : List (String × List String)) :
    ((smallPhase f small dic).2.1.map Prod.fst).Perm
      ((smallLoop f small dic).2.1.map Prod.fst) := by
  have hperm := (List.perm_insertionSort (fun p q : String × List String => p.1 ≤ q.1)
    ((smallLoop f small dic).2.1.map (fun p => (p.1, sortStr p.2)))).map Prod.fst
  rw [List.map_map] at hperm
  have heq : ((smallLoop f small dic).2.1.map (Prod.fst ∘ fun p => (p.1, sortStr p.2))) =
      (smallLoop f small dic).2.1.map Prod.fst := by
    apply List.map_congr_left
    intro p _
    rfl
  rw [heq] at hperm
  exact hperm

/-- C3: after the walk, each set-aside small-file bucket is re-examined:
when its extracted identifier already has a group in dic, the bucket's paths
are appended to that group's file list and the bucket is not among the
permanently skipped buckets; otherwise (no identifier, or no such group) it
stays in the skipped list that feeds the summary count. -/
theorem small_file_remerge :
    ∀ (f : String → Option String) (dic small : List (String × List String))
      (name : String) (paths : List String),
      (small.map Prod.fst).Nodup → (name, paths) ∈ small →
      (∀ avid, f name = some avid → hasKey dic avid = true →
        (∀ p ∈ paths, p ∈ lookupD (smallPhase f small dic).1 avid) ∧
        name ∉ (smallPhase f small dic).2.1.map Prod.fst) ∧
      ((∀ avid, f name = some avid → hasKey dic avid = false) →
        (name, sortStr paths) ∈ (smallPhase f small dic).2.1) := by
  intro f dic small name paths hkeys hmem
  have hcore := smallLoop_processed f small dic name paths hkeys hmem
  constructor
  · intro avid hfn hk
    refine ⟨(hcore.1 avid hfn hk).1, ?_⟩
    intro hin
    exact (hcore.1 avid hfn hk).2 ((smallPhase_rem_keys_perm f small dic).mem_iff.mp hin)
  · intro hnone
    have hm := hcore.2 hnone
    apply (List.perm_insertionSort _ _).mem_iff.mpr
    exact List.mem_map.mpr ⟨(name, paths), hm, rfl⟩

/-- C3 witness: a small file whose identifier X already has a group is
merged into that group's list and is absent from the skipped buckets. -/
theorem small_file_remerge_witness :
    (∀ p ∈ [("r/sub/small.mp4")],
      p ∈ lookupD (smallPhase (fun n => if n = ("small.mp4") then some ("X") else none)
        [(("small.mp4"), [("r/sub/small.mp4")])] [(("X"), [("r/big.mp4")])]).1 ("X")) ∧
    ("small.mp4") ∉ (smallPhase (fun n => if n = ("small.mp4") then some ("X") else none)
        [(("small.mp4"), [("r/sub/small.mp4")])] [(("X"), [("r/big.mp4")])]).2.1.map Prod.fst :=
  (small_file_remerge (fun n => if n = ("small.mp4") then some ("X") else none)
    [(("X"), [("r/big.mp4")])] [(("small.mp4"), [("r/sub/small.mp4")])]
    ("small.mp4") [("r/sub/small.mp4")] (by decide) (by decide)).1 ("X") (by decide) (by decide)

/-! ## Directory Scanner (src/javsp/file.py lines 141-271)

The filesystem is a finite tree: a directory holds a readable flag, named
subdirectories and named files with byte sizes. os.walk(root) with its
default onerror=None silently yields nothing for a missing, non-directory or
unreadable root, and silently skips unreadable subdirectories it would
descend into; but the skip_nfo_dir branch of lines 156-159 calls os.listdir
on each subdirectory outside any try/except, so an unreadable subdirectory
raises PermissionError there, and a directory that is first removed by the
ignore pattern and then also matches the nfo check hits a second
dirnames.remove(name), raising ValueError. The walk recursion is bounded by
an explicit fuel; sizeOf of the tree strictly dominates its depth, so the
fuel never runs out on the root call.
-/

inductive PyErr where
  | permissionError (path : String)
  | valueError
deriving DecidableEq

-- the configuration surface and the black-box collaborators (spec section 6)
structure ScanCfg where
  ignorePat : String → Bool
  skip_nfo : Bool
  exts : List String
  minSize : Nat
  get_id : String → Option String
  get_cid : String → Option String
  guess_av_type : String → String

inductive FSTree where
  | node (readable : Bool) (subs : List (String × FSTree)) (files : List (String × Nat))

def FSTree.readable : FSTree → Bool
  | .node r _ _ => r

def FSTree.subs : FSTree → List (String × FSTree)
  | .node _ s _ => s

def FSTree.files : FSTree → List (String × Nat)
  | .node _ _ f => f

mutual
def FSTree.size : FSTree → Nat
  | .node _ subs _ => 1 + sizeSubs subs
def sizeSubs : List (String × FSTree) → Nat
  | [] => 0
  | (_, t) :: rest => FSTree.size t + sizeSubs rest
end

def lookupSub : List (String × FSTree) → String → Option FSTree
  | [], _ => none
  | (n, t) :: rest, name => if n = name then some t else lookupSub rest name

-- os.path.splitext(name)[1].lower(): the extension starts at the last dot,
-- unless every character before that dot is itself a dot (leading dots)
def extOf (name : String) : String :=
  match List.findIdx? (fun c => c == '.') name.data.reverse with
  | none => ("")
  | some j =>
    if (name.data.take (name.data.length - 1 - j)).any (fun c => c != '.') then
      ⟨pyLowerL (name.data.drop (name.data.length - 1 - j))⟩
    else ("")

-- any(file.lower().endswith(".nfo") for file in os.listdir(...)) over the
-- directory's entries (files and subdirectories alike)
def hasNfoEntry (t : FSTree) : Bool :=
  ((t.files.map Prod.fst) ++ (t.subs.map Prod.fst)).any
    (fun n => (".nfo").data.isSuffixOf (pyLowerL n.data))

-- Lines 152-159: for name in dirnames.copy(): remove ignore-matched names;
-- when skip_nfo_dir is set, listdir each subdirectory (PermissionError when
-- it is unreadable) and remove it again if it contains an .nfo entry
-- (ValueError when the ignore branch already removed it).
def dirFilterLoop (cfg : ScanCfg) (subs : List (String × FSTree)) :
    List String → List String → Except PyErr (List String)
  | [], acc => .ok acc
  | name :: rest, acc =>
    if cfg.skip_nfo then
      match lookupSub subs name with
      | some t =>
        if t.readable then
          if hasNfoEntry t then
            if name ∈ (if cfg.ignorePat name then acc.erase name else acc) then
              dirFilterLoop cfg subs rest
                ((if cfg.ignorePat name then acc.erase name else acc).erase name)
            else .error .valueError
          else dirFilterLoop cfg subs rest (if cfg.ignorePat name then acc.erase name else acc)
        else .error (.permissionError name)
      | none => dirFilterLoop cfg subs rest (if cfg.ignorePat name then acc.erase name else acc)
    else dirFilterLoop cfg subs rest (if cfg.ignorePat name then acc.erase name else acc)

def dirFilter (cfg : ScanCfg) (subs : List (String × FSTree)) : Except PyErr (List String) :=
  dirFilterLoop cfg subs (subs.map Prod.fst) (subs.map Prod.fst)

-- per-scan mutable state: dic, small_videos, failed paths
structure ScanSt where
  dic : List (String × List String)
  small : List (String × List String)
  failed : List String

-- Lines 161-183: bucket one file by extension, size and extracted id.
-- avid = cid if cid else dvdid, small files keyed by bare filename.
def scanFile (cfg : ScanCfg) (dirpath fname : String) (size : Nat) (st : ScanSt) : ScanSt :=
  if extOf fname ∈ cfg.exts then
    if size < cfg.minSize then
      { st with small := appendAssoc st.small fname [pathJoin dirpath fname] }
    else
      match (match cfg.get_cid (pathJoin dirpath fname) with
             | some c => some c
             | none => cfg.get_id (pathJoin dirpath fname)) with
      | some avid => { st with dic := appendAssoc st.dic avid [pathJoin dirpath fname] }
      | none => { st with failed := st.failed ++ [pathJoin dirpath fname] }
  else st

-- os.walk fused with the loop body of lines 151-183: yield the directory
-- (prune subdirectories, bucket files), then descend into the surviving
-- subdirectories in order.
def walkF (cfg : ScanCfg) : Nat → String → FSTree → ScanSt → Except PyErr ScanSt
  | 0, _, _, st => .ok st
  | fuel + 1, path, t, st =>
    if t.readable then
      match dirFilter cfg t.subs with
      | .error e => .error e
      | .ok keep =>
        List.foldlM
          (fun s name =>
            match lookupSub t.subs name with
            | some sub => walkF cfg fuel (pathJoin path name) sub s
            | none => Except.ok s)
          (t.files.foldl (fun s fp => scanFile cfg path fp.1 fp.2 s) st) keep
    else .ok st

def splitSlashAux : List Char → List Char → List (List Char)
  | [], cur => [cur.reverse]
  | c :: cs, cur =>
    if c = '/' then cur.reverse :: splitSlashAux cs [] else splitSlashAux cs (c :: cur)

def splitSlash (l : List Char) : List (List Char) := splitSlashAux l []

def resolveGo : List String → FSTree → Option FSTree
  | [], t => some t
  | seg :: rest, t =>
    match lookupSub t.subs seg with
    | some sub => resolveGo rest sub
    | none => none

-- locate the directory a path denotes; files and missing paths resolve to
-- none (os.walk then yields nothing, its scandir error being swallowed)
def resolvePath (fs : FSTree) (path : String) : Option FSTree :=
  if path = (".") then some fs
  else resolveGo (((splitSlash path.data).filter (fun s => s ≠ [])).map (fun s => ⟨s⟩)) fs

-- avid = cid if cid else dvdid over the bare filename (lines 187-189)
def smallKey (cfg : ScanCfg) (name : String) : Option String :=
  match cfg.get_cid name with
  | some c => some c
  | none => cfg.get_id name

-- the output record (javsp/datatype.py Movie, the fields this scan sets)
structure Movie where
  dvdid : Option String
  cid : Option String
  files : List String
  data_src : String
deriving DecidableEq

-- Lines 258-270: one record per surviving group; cid-classified ids also
-- store the dvdid of the first file as a fallback.
def mkMovie (cfg : ScanCfg) (p : String × List String) : Movie :=
  if cfg.guess_av_type p.1 ≠ ("cid") then
    { dvdid := some p.1, cid := none, files := p.2, data_src := cfg.guess_av_type p.1 }
  else
    { dvdid := cfg.get_id (p.2.headD ("")), cid := some p.1, files := p.2,
      data_src := cfg.guess_av_type p.1 }

def assembleMovies (cfg : ScanCfg) (dic : List (String × List String)) : List Movie :=
  dic.map (mkMovie cfg)

def scanState (cfg : ScanCfg) (fs : FSTree) (root : String) : Except PyErr ScanSt :=
  match resolvePath fs root with
  | none => .ok ⟨[], [], []⟩
  | some t => walkF cfg t.size root t ⟨[], [], []⟩

-- def scan_movies(root): walk, merge small files, resolve duplicates and
-- slices, assemble the records.
def scan_moviesE (cfg : ScanCfg) (fs : FSTree) (root : String) : Except PyErr (List Movie) :=
  Except.map
    (fun st => assembleMovies cfg (dupPhase (smallPhase (smallKey cfg) st.small st.dic).1).1)
    (scanState cfg fs root)

/-! ### C4: behaviour on an invalid root -/

def cfgC4 : ScanCfg :=
  ⟨fun _ => false, false, [(".mp4")], 0, fun _ => none, fun _ => none, fun _ => ("normal")⟩

def fsC4 : FSTree := .node true [] []

/-- C4 counterexample: scanning the non-existent root "missing" does not
surface any error: it returns the empty movie list as an ordinary success,
indistinguishable from scanning the existing empty directory ".". -/
theorem scan_invalid_root_no_error :
    scan_moviesE cfgC4 fsC4 ("missing") = Except.ok [] ∧
    scan_moviesE cfgC4 fsC4 (".") = Except.ok [] :=
  ⟨rfl, rfl⟩

/-- C4 amended: for every root that does not resolve to a directory (missing
path or plain file), scan_movies swallows the walk error and returns the
empty movie list as a success; no distinct invalid-root error reaches the
caller. -/
theorem scanState_resolve_none {cfg : ScanCfg} {fs : FSTree} {root : String}
    (h : resolvePath fs root = none) : scanState cfg fs root = Except.ok ⟨[], [], []⟩ := by
  rw [scanState, h]

theorem scanState_resolve_some {cfg : ScanCfg} {fs : FSTree} {root : String} {t : FSTree}
    (h : resolvePath fs root = some t) :
    scanState cfg fs root = walkF cfg t.size root t ⟨[], [], []⟩ := by
  rw [scanState, h]

theorem scan_invalid_root_empty :
    ∀ (cfg : ScanCfg) (fs : FSTree) (root : String),
      resolvePath fs root = none → scan_moviesE cfg fs root = Except.ok [] := by
  intro cfg fs root h
  rw [scan_moviesE, scanState_resolve_none h]
  rfl

/-- C4 amended witness: the empty success at a concrete missing root. -/
theorem scan_invalid_root_empty_witness :
    scan_moviesE cfgC4 (FSTree.node true [(("a"), FSTree.node true [] [])] []) ("nope") =
      Except.ok [] :=
  scan_invalid_root_empty cfgC4 (FSTree.node true [(("a"), FSTree.node true [] [])] [])
    ("nope") rfl

/-! ### C5: propagation of per-entry failures -/

def cfgC5 : ScanCfg :=
  ⟨fun _ => false, true, [(".mp4")], 0, fun _ => none, fun _ => none, fun _ => ("normal")⟩

def fsC5 : FSTree := .node true [(("r"), .node true [(("d"), .node false [] [])] [])] []

/-- C5 counterexample: with skip_nfo_dir enabled, an unreadable subdirectory
aborts the whole scan with a PermissionError (the os.listdir of line 157 is
not guarded), contradicting the claim that no error aborts the scan. -/
theorem scan_aborts_on_unreadable_subdir :
    scan_moviesE cfgC5 fsC5 ("r") = Except.error (PyErr.permissionError ("d")) :=
  rfl

theorem foldlM_ok {α β : Type} {g : β → α → Except PyErr β}
    (hg : ∀ b a, ∃ b2, g b a = Except.ok b2) :
    ∀ (l : List α) (b : β), ∃ b2, List.foldlM g b l = Except.ok b2 := by
  intro l
  induction l with
  | nil =>
    intro b
    exact ⟨b, rfl⟩
  | cons a t ih =>
    intro b
    obtain ⟨b1, hb1⟩ := hg b a
    obtain ⟨b2, hb2⟩ := ih b1
    refine ⟨b2, ?_⟩
    rw [List.foldlM_cons, hb1]
    exact hb2

theorem dirFilterLoop_ok {cfg : ScanCfg} (hskip : cfg.skip_nfo = false)
    (subs : List (String × FSTree)) :
    ∀ (names acc : List String), ∃ keep, dirFilterLoop cfg subs names acc = Except.ok keep := by
  intro names
  induction names with
  | nil =>
    intro acc
    exact ⟨acc, rfl⟩
  | cons name rest ih =>
    intro acc
    rw [dirFilterLoop, hskip]
    exact ih _

theorem walkF_ok {cfg : ScanCfg} (hskip : cfg.skip_nfo = false) :
    ∀ (fuel : Nat) (path : String) (t : FSTree) (st : ScanSt),
      ∃ st2, walkF cfg fuel path t st = Except.ok st2 := by
  intro fuel
  induction fuel with
  | zero =>
    intro path t st
    exact ⟨st, rfl⟩
  | succ fuel ih =>
    intro path t st
    rw [walkF]
    by_cases hr : t.readable
    · rw [if_pos hr]
      obtain ⟨keep, hkeep⟩ := dirFilterLoop_ok hskip t.subs (t.subs.map Prod.fst)
        (t.subs.map Prod.fst)
      rw [dirFilter, hkeep]
      apply foldlM_ok
      intro s name
      match lookupSub t.subs name with
      | some sub => exact ih (pathJoin path name) sub s
      | none => exact ⟨s, rfl⟩
    · rw [if_neg hr]
      exact ⟨st, rfl⟩

/-- C5 amended: os.walk itself swallows unreadable directories (an
unreadable directory contributes nothing and traversal continues), and with
skip_nfo_dir disabled no failure of any directory entry aborts the scan:
it always returns a best-effort movie list; with skip_nfo_dir enabled,
however, an unreadable subdirectory raises PermissionError out of the scan
(see the counterexample), and a subdirectory both ignore-matched and
nfo-marked raises ValueError. -/
theorem scan_total_without_nfo_skip :
    (∀ (cfg : ScanCfg) (fuel : Nat) (path : String) (t : FSTree) (st : ScanSt),
      t.readable = false → walkF cfg fuel path t st = Except.ok st) ∧
    (∀ cfg : ScanCfg, cfg.skip_nfo = false → ∀ (fs : FSTree) (root : String),
      ∃ ms, scan_moviesE cfg fs root = Except.ok ms) := by
  constructor
  · intro cfg fuel path t st hr
    cases fuel with
    | zero => rfl
    | succ fuel =>
      rw [walkF, if_neg (by rw [hr]; exact Bool.false_ne_true)]
  · intro cfg hskip fs root
    rw [scan_moviesE]
    cases hres : resolvePath fs root with
    | none =>
      rw [scanState_resolve_none hres]
      exact ⟨_, rfl⟩
    | some t =>
      obtain ⟨st, hst⟩ := walkF_ok hskip t.size root t ⟨[], [], []⟩
      rw [scanState_resolve_some hres, hst]
      exact ⟨_, rfl⟩

/-- C5 amended witness: with skip_nfo_dir disabled the scan of a tree with
an unreadable subdirectory still returns a movie list. -/
theorem scan_total_without_nfo_skip_witness :
    ∃ ms, scan_moviesE cfgC4 fsC5 ("r") = Except.ok ms :=
  scan_total_without_nfo_skip.2 cfgC4 rfl fsC5 ("r")

/-! ### C10: invariants of the returned records -/

theorem dupPhase_cons_len1 {a0 : String} {f0 : List String}
    (rest : List (String × List String)) (h : f0.length = 1) :
    dupPhase ((a0, f0) :: rest) =
      ((a0, f0) :: (dupPhase rest).1, (dupPhase rest).2) := by
  rw [dupPhase, if_pos h]

theorem dupPhase_cons_multidir {a0 : String} {f0 : List String}
    (rest : List (String × List String)) (h1 : ¬f0.length = 1)
    (h2 : 1 < (f0.map dirOf).dedup.length) :
    dupPhase ((a0, f0) :: rest) =
      ((dupPhase rest).1, (a0, f0) :: (dupPhase rest).2) := by
  rw [dupPhase, if_neg h1, if_pos h2]

theorem dupPhase_cons_accept {a0 : String} {f0 ordered : List String}
    (rest : List (String × List String)) (h1 : ¬f0.length = 1)
    (h2 : ¬1 < (f0.map dirOf).dedup.length) (h3 : sliceCheck f0 = some ordered) :
    dupPhase ((a0, f0) :: rest) =
      ((a0, ordered) :: (dupPhase rest).1, (dupPhase rest).2) := by
  rw [dupPhase, if_neg h1, if_neg h2, h3]

theorem dupPhase_cons_reject {a0 : String} {f0 : List String}
    (rest : List (String × List String)) (h1 : ¬f0.length = 1)
    (h2 : ¬1 < (f0.map dirOf).dedup.length) (h3 : sliceCheck f0 = none) :
    dupPhase ((a0, f0) :: rest) =
      ((dupPhase rest).1, (a0, f0) :: (dupPhase rest).2) := by
  rw [dupPhase, if_neg h1, if_neg h2, h3]

theorem one_le_dedup_length {α : Type} [DecidableEq α] {l : List α} (h : l ≠ []) :
    1 ≤ l.dedup.length := by
  obtain ⟨c, m, hm⟩ := List.exists_cons_of_ne_nil h
  have hc : c ∈ l.dedup := List.mem_dedup.mpr (by rw [hm]; exact List.mem_cons_self c m)
  cases he : l.dedup with
  | nil =>
    rw [he] at hc
    exact absurd hc (List.not_mem_nil c)
  | cons x t => simp

theorem sliceCheck_nil : sliceCheck [] = none := by decide

-- Every group the duplicate/slice phase keeps has a nonempty file list all
-- of whose members share one parent directory.
theorem dupPhase_kept_invariant :
    ∀ (dic : List (String × List String)) (avid : String) (files : List String),
      (avid, files) ∈ (dupPhase dic).1 →
      files ≠ [] ∧ ∀ f ∈ files, ∀ g ∈ files, dirOf f = dirOf g := by
  intro dic
  induction dic with
  | nil =>
    intro avid files h
    exact absurd h (List.not_mem_nil _)
  | cons p rest ih =>
    intro avid files hmem
    match p with
    | (a0, f0) =>
      by_cases h1 : f0.length = 1
      · rw [dupPhase_cons_len1 rest h1] at hmem
        rcases List.mem_cons.mp hmem with hhead | htail
        · have hf : files = f0 := (Prod.mk.injEq _ _ _ _ ▸ hhead).2
          subst hf
          obtain ⟨x, hx⟩ := List.length_eq_one.mp h1
          subst hx
          refine ⟨by simp, ?_⟩
          intro f hf g hg
          rw [List.mem_singleton] at hf hg
          rw [hf, hg]
        · exact ih avid files htail
      · by_cases h2 : 1 < (f0.map dirOf).dedup.length
        · rw [dupPhase_cons_multidir rest h1 h2] at hmem
          exact ih avid files hmem
        · cases hsc : sliceCheck f0 with
          | none =>
            rw [dupPhase_cons_reject rest h1 h2 hsc] at hmem
            exact ih avid files hmem
          | some ordered =>
            rw [dupPhase_cons_accept rest h1 h2 hsc] at hmem
            rcases List.mem_cons.mp hmem with hhead | htail
            · have hf : files = ordered := (Prod.mk.injEq _ _ _ _ ▸ hhead).2
              subst hf
              have hf0ne : f0 ≠ [] := by
                intro h
                rw [h, sliceCheck_nil] at hsc
                exact Option.noConfusion hsc
              obtain ⟨heq, hnd⟩ := sliceCheck_some_eq hsc
              have hperm : files.Perm f0 := by
                rw [heq]
                exact reorder_perm_of_nodup hnd
              have hmapne : f0.map dirOf ≠ [] := by
                intro h
                exact hf0ne (List.map_eq_nil_iff.mp h)
              have hall : ∀ f ∈ f0, ∀ g ∈ f0, dirOf f = dirOf g := by
                have hone : (f0.map dirOf).dedup.length = 1 := by
                  have := one_le_dedup_length hmapne
                  omega
                intro f hf g hg
                exact (dedup_length_one_iff hmapne).mp hone (dirOf f)
                  (List.mem_map.mpr ⟨f, hf, rfl⟩) (dirOf g) (List.mem_map.mpr ⟨g, hg, rfl⟩)
              refine ⟨?_, ?_⟩
              · intro h
                rw [h] at hperm
                exact hf0ne hperm.symm.eq_nil
              · intro f hf g hg
                exact hall f (hperm.subset hf) g (hperm.subset hg)
            · exact ih avid files htail

theorem mkMovie_files (cfg : ScanCfg) (p : String × List String) :
    (mkMovie cfg p).files = p.2 := by
  rw [mkMovie]
  split
  · rfl
  · rfl

def cfgC10 : ScanCfg :=
  ⟨fun _ => false, false, [(".mp4")], 0, fun _ => some ("ABC-123"), fun _ => none,
   fun _ => ("normal")⟩

def fsC10 : FSTree :=
  .node true [(("r"), .node true []
    [(("a.mp4"), 1), (("b.mp4"), 1), (("c.mp4"), 1), (("d.mp4"), 1), (("e.mp4"), 1),
     (("f.mp4"), 1), (("g.mp4"), 1), (("h.mp4"), 1), (("i.mp4"), 1), (("j.mp4"), 1),
     (("k.mp4"), 1), (("l.mp4"), 1), (("m.mp4"), 1), (("n.mp4"), 1), (("o.mp4"), 1),
     (("p.mp4"), 1), (("q.mp4"), 1), (("r.mp4"), 1), (("s.mp4"), 1), (("t.mp4"), 1),
     (("u.mp4"), 1), (("v.mp4"), 1), (("w.mp4"), 1), (("x.mp4"), 1), (("y.mp4"), 1),
     (("z.mp4"), 1), (("\x7b.mp4"), 1)])] []

/-- C10 counterexample: scan_movies can return a record holding 27 files of
one identifier in one directory, exceeding the claimed 26-file bound: with
tokens a..z from substitution plus one unsubstituted file whose remainder
starts at code point 123, the endpoint test ord(last) = ord(first)+n-1 still
passes, so the 27-file group is accepted. -/
theorem scan_returns_27_file_group :
    ((scan_moviesE cfgC10 fsC10 ("r")).toOption.getD []).map (fun m => m.files.length) =
      [27] ∧
    ((scan_moviesE cfgC10 fsC10 ("r")).toOption.getD []).map
      (fun m => (m.files.map dirOf).dedup) = [[("r")]] := by
  decide

-- A group in which several files pass the remainder check unsubstituted is
-- also accepted: with an empty common prefix, a file without alphanumeric
-- characters is left unchanged by the substitution and its first (lowered)
-- character acts as a token, so a.mp4..z.mp4 plus the two unsubstituted
-- files {.mp4 and |.mp4 (tokens a..z, chr(123), chr(124), all tails .mp4)
-- form an accepted 28-file run.
def slices28 : List String :=
  [("r/a.mp4"), ("r/b.mp4"), ("r/c.mp4"), ("r/d.mp4"), ("r/e.mp4"), ("r/f.mp4"),
   ("r/g.mp4"), ("r/h.mp4"), ("r/i.mp4"), ("r/j.mp4"), ("r/k.mp4"), ("r/l.mp4"),
   ("r/m.mp4"), ("r/n.mp4"), ("r/o.mp4"), ("r/p.mp4"), ("r/q.mp4"), ("r/r.mp4"),
   ("r/s.mp4"), ("r/t.mp4"), ("r/u.mp4"), ("r/v.mp4"), ("r/w.mp4"), ("r/x.mp4"),
   ("r/y.mp4"), ("r/z.mp4"), ("r/\x7b.mp4"), ("r/\x7c.mp4")]

theorem sliceCheck_accepts_two_unsubstituted :
    ((sliceCheck slices28).getD []).length = 28 ∧
    sliceTokens slices28 = [('a'), ('b'), ('c'), ('d'), ('e'), ('f'), ('g'), ('h'), ('i'),
      ('j'), ('k'), ('l'), ('m'), ('n'), ('o'), ('p'), ('q'), ('r'), ('s'), ('t'), ('u'),
      ('v'), ('w'), ('x'), ('y'), ('z'), ('\x7b'), ('\x7c')] := by
  decide

/-- C10 amended: every MovieRecord returned by scan_movies has a nonempty
file list all of whose members share a single parent directory; the numeric
bounds do not hold in general, since slice tokens need not be substituted
alphanumerics: any file whose whole lowered basename passes the remainder
check unsubstituted contributes its first character as a token, and several
such files can pass at once, so runs of 27 files (see the counterexample)
or more (see sliceCheck on a 28-file group with two unsubstituted members)
are accepted. -/
theorem scan_movies_record_invariant :
    ∀ (cfg : ScanCfg) (fs : FSTree) (root : String) (ms : List Movie) (m : Movie),
      scan_moviesE cfg fs root = Except.ok ms → m ∈ ms →
      m.files ≠ [] ∧ ∀ f ∈ m.files, ∀ g ∈ m.files, dirOf f = dirOf g := by
  intro cfg fs root ms m hok hm
  rw [scan_moviesE] at hok
  cases hst : scanState cfg fs root with
  | error e =>
    rw [hst] at hok
    exact absurd hok (by simp [Except.map])
  | ok st =>
    rw [hst] at hok
    have hms : assembleMovies cfg
        (dupPhase (smallPhase (smallKey cfg) st.small st.dic).1).1 = ms := by
      simpa [Except.map] using hok
    rw [← hms, assembleMovies] at hm
    obtain ⟨p, hp, hmp⟩ := List.mem_map.mp hm
    have hfiles : m.files = p.2 := by
      rw [← hmp, mkMovie_files]
    rw [hfiles]
    apply dupPhase_kept_invariant _ p.1 p.2
    rw [Prod.mk.eta]
    exact hp

/-- C10 amended witness: the invariant applied to a concrete one-file scan. -/
theorem scan_movies_record_invariant_witness :
    (Movie.mk (some ("ABC-123")) none [("r/x.mp4")] ("normal")).files ≠ [] ∧
    ∀ f ∈ (Movie.mk (some ("ABC-123")) none [("r/x.mp4")] ("normal")).files,
      ∀ g ∈ (Movie.mk (some ("ABC-123")) none [("r/x.mp4")] ("normal")).files,
        dirOf f = dirOf g :=
  scan_movies_record_invariant cfgC10
    (FSTree.node true [(("r"), FSTree.node true [] [(("x.mp4"), 5)])] []) ("r")
    [Movie.mk (some ("ABC-123")) none [("r/x.mp4")] ("normal")]
    (Movie.mk (some ("ABC-123")) none [("r/x.mp4")] ("normal")) rfl
    (List.mem_singleton.mpr rfl)

/-! ## Path-Pattern Matcher (src/javsp/file.py lines 48-130)

get_existing_summary_avids splits the output-folder template into a literal
prefix and placeholder segments, compiles each segment (literal text matched
exactly, the num placeholder a capturing [^/]+ wildcard, other placeholders
non-capturing wildcards, with _PLACEHOLDER_PATTERN requiring a nonempty
brace body), and walks the tree breadth-first over directories only,
carrying the last nonempty captured num; finally the captures are
normalized and collected as a set. os.path.normpath is modelled as the
identity (model paths are already normalized POSIX relative paths), and a
segment with several num placeholders, which re.compile would reject as a
duplicate group name, keeps the innermost capture.
-/
def hasSubL (needle : List Char) : List Char → Bool
  | [] => needle.isPrefixOf []
  | c :: cs => needle.isPrefixOf (c :: cs) || hasSubL needle cs

def rstripSlash (l : List Char) : List Char :=
  (l.reverse.dropWhile (fun c => c == '/')).reverse

def rfindSlashBefore (l : List Char) (stop : Nat) : Option Nat :=
  match List.findIdx? (fun c => c == '/') (l.take stop).reverse with
  | none => none
  | some j => some (stop - 1 - j)

def segsOf (tail : List Char) : List String :=
  ((splitSlash tail).filter (fun s => s ≠ [])).map (fun s => ⟨s⟩)

def _split_output_pattern (pattern : String) : String × List String :=
  match List.findIdx? (fun c => c == '\x7b')
      (pyStripL (pattern.data.map (fun c => if c = '\\' then '/' else c))) with
  | none =>
    (⟨rstripSlash (pyStripL (pattern.data.map (fun c => if c = '\\' then '/' else c)))⟩, [])
  | some i =>
    match rfindSlashBefore
        (pyStripL (pattern.data.map (fun c => if c = '\\' then '/' else c))) i with
    | none =>
      (⟨[]⟩, segsOf (pyStripL (pattern.data.map (fun c => if c = '\\' then '/' else c))))
    | some k =>
      (⟨rstripSlash ((pyStripL (pattern.data.map (fun c => if c = '\\' then '/' else c))).take k)⟩,
       segsOf ((pyStripL (pattern.data.map (fun c => if c = '\\' then '/' else c))).drop (k + 1)))

inductive SegTok where
  | lit (s : List Char)
  | wildNum
  | wildAny

def splitAtRBrace (l : List Char) : Option (List Char × List Char) :=
  match List.findIdx? (fun c => c == '\x7d') l with
  | none => none
  | some j => some (l.take j, l.drop (j + 1))

def parseSegF : Nat → List Char → List SegTok
  | _, [] => []
  | 0, l => [SegTok.lit l]
  | fuel + 1, c :: cs =>
    if c = '\x7b' then
      match splitAtRBrace cs with
      | some (between, after) =>
        if between ≠ [] then
          (if pyStripL between = ("num").data then SegTok.wildNum else SegTok.wildAny) ::
            parseSegF fuel after
        else SegTok.lit [c] :: parseSegF fuel cs
      | none => [SegTok.lit (c :: cs)]
    else SegTok.lit [c] :: parseSegF fuel cs

def parseSeg (s : String) : List SegTok := parseSegF s.data.length s.data

def firstSomeDesc (f : Nat → Option (Option (List Char))) : Nat → Option (Option (List Char))
  | 0 => none
  | k + 1 =>
    match f (k + 1) with
    | some r => some r
    | none => firstSomeDesc f k

def matchToks : List SegTok → List Char → Option (Option (List Char))
  | [], [] => some none
  | [], _ :: _ => none
  | SegTok.lit s :: rest, cs =>
    if s.isPrefixOf cs then matchToks rest (cs.drop s.length) else none
  | SegTok.wildNum :: rest, cs =>
    firstSomeDesc (fun k =>
      if ('/') ∈ cs.take k then none
      else
        match matchToks rest (cs.drop k) with
        | some cap => some (some (cap.getD (cs.take k)))
        | none => none) cs.length
  | SegTok.wildAny :: rest, cs =>
    firstSomeDesc (fun k =>
      if ('/') ∈ cs.take k then none
      else matchToks rest (cs.drop k)) cs.length

def stepSeg (toks : List SegTok) (cands : List (FSTree × Option (List Char))) :
    List (FSTree × Option (List Char)) :=
  cands.flatMap (fun c =>
    if c.1.readable then
      c.1.subs.filterMap (fun p =>
        match matchToks toks p.1.data with
        | some mcap =>
          some (p.2, match mcap with
                     | some v => if v ≠ [] then some v else c.2
                     | none => c.2)
        | none => none)
    else [])

def get_existing_summary_avids (fs : FSTree) (pattern : String) : List String :=
  if hasSubL ("\x7bnum\x7d").data pattern.data then
    if (_split_output_pattern pattern).2 = [] then []
    else
      match resolvePath fs
          (if (_split_output_pattern pattern).1 = ("") then (".")
           else (_split_output_pattern pattern).1) with
      | none => []
      | some t =>
        ((((_split_output_pattern pattern).2.map parseSeg).foldl
            (fun cands toks => stepSeg toks cands) [(t, none)]).filterMap
          (fun c =>
            match c.2 with
            | some v =>
              match _normalize_duplicate_avid (some ⟨v⟩) with
              | some r => if r.data ≠ [] then some r else none
              | none => none
            | none => none)).dedup
  else []

def fsC8 : FSTree :=
  .node true [(("media"), .node true
    [(("ABC-123"), .node true [] [(("video.mp4"), 5)]),
     (("ABC-123-C"), .node true [] [(("video.mp4"), 5)])] [])] []

def fsC8d : FSTree :=
  .node true [(("media"), .node true
    [(("ABC-123"), .node true [(("video.mp4"), .node true [] [])] []),
     (("ABC-123-C"), .node true [(("video.mp4"), .node true [] [])] [])] [])] []

/-- C8 counterexample: with template media/{num}/video.mp4 over a tree in
which media/ABC-123/video.mp4 and media/ABC-123-C/video.mp4 are files, the
extraction returns the empty set, not the claimed set containing ABC-123:
the final template segment is only matched against subdirectories, and
video.mp4 is a file. -/
theorem existing_avids_file_component_empty :
    get_existing_summary_avids fsC8 ("media/{num}/video.mp4") = [] ∧
    ¬get_existing_summary_avids fsC8 ("media/{num}/video.mp4") = [("ABC-123")] := by
  decide

/-- C8 amended: every template component must denote a directory; with the
same template the file-based tree yields the empty set, and the tree whose
video.mp4 components are directories yields the normalized singleton
ABC-123 (the cosmetic-suffix variant ABC-123-C collapsing onto it). -/
theorem existing_avids_dir_components :
    get_existing_summary_avids fsC8 ("media/{num}/video.mp4") = [] ∧
    get_existing_summary_avids fsC8d ("media/{num}/video.mp4") = [("ABC-123")] := by
  decide

/-- C9: existing-identifier extraction returns the empty set when the
template has no num placeholder, and when the template's literal prefix
does not resolve to a directory; both are ordinary empty results of the
total function, not errors. -/
theorem existing_avids_empty_cases :
    (∀ (fs : FSTree) (pattern : String),
      hasSubL ("\x7bnum\x7d").data pattern.data = false →
      get_existing_summary_avids fs pattern = []) ∧
    (∀ (fs : FSTree) (pattern : String),
      resolvePath fs (if (_split_output_pattern pattern).1 = ("") then (".")
        else (_split_output_pattern pattern).1) = none →
      get_existing_summary_avids fs pattern = []) := by
  constructor
  · intro fs pattern h
    rw [get_existing_summary_avids, if_neg (by rw [h]; exact Bool.false_ne_true)]
  · intro fs pattern h
    rw [get_existing_summary_avids]
    by_cases h1 : hasSubL ("\x7bnum\x7d").data pattern.data = true
    · rw [if_pos h1]
      by_cases h2 : (_split_output_pattern pattern).2 = []
      · rw [if_pos h2]
      · rw [if_neg h2, h]
    · rw [if_neg h1]

/-- C9 witness: the no-placeholder clause applied to a concrete template. -/
theorem existing_avids_empty_cases_witness :
    get_existing_summary_avids (FSTree.node true [] []) ("media/video.mp4") = [] :=
  existing_avids_empty_cases.1 (FSTree.node true [] []) ("media/video.mp4") (by decide)
